import Mathlib

/-!
Verification of `primekg_neo4j_preprocess.py`.

The script transforms a PrimeKG node file and edge file into two CSV files
for `neo4j-admin` bulk import.  This file gives a shallow embedding of the
script's pure helpers (`clean_token`, `make_primekg_key`) and of its two
chunked transform stages, and proves the specified properties about them.

Missing values (pandas `NaN`) are modelled as `Option.none`; a CSV field is
a `String`; a written line is the list of its fields in column order.
-/

set_option maxRecDepth 4000

/-- Characters matched by the class `[0-9A-Za-z_]` of `_token_re`
(the complement of the class the regex replaces). -/
def isTokenChar (c : Char) : Bool := c.isAlphanum || c = '_'

/-- ASCII whitespace stripped by Python's `str.strip()`.
(Unicode-only whitespace is not modelled; it is irrelevant here because
every non-`[0-9A-Za-z_]` character is replaced by `_` anyway.) -/
def isPySpace (c : Char) : Bool :=
  c = ' ' || c = '\t' || c = '\n' || c = '\r' || c = '\x0b' || c = '\x0c'

/-- Underscore, the character set of Python's `str.strip("_")`. -/
def isUS (c : Char) : Bool := c = '_'

/-- Drop the longest run of characters satisfying `p` from the end of `l`. -/
def dropTrailing (p : Char → Bool) (l : List Char) : List Char :=
  (l.reverse.dropWhile p).reverse

/-- Python `str.strip` with character class `p`: drop the longest
`p`-runs from both ends. -/
def stripEnds (p : Char → Bool) (l : List Char) : List Char :=
  dropTrailing p (l.dropWhile p)

/-- Python `str.strip()` on a `String`. -/
def pyStrip (s : String) : String := ⟨stripEnds isPySpace s.data⟩

/-- `_token_re.sub("_", x)`: replace every maximal run of characters outside
`[0-9A-Za-z_]` with a single underscore.  The flag records whether the
previous character belonged to a run already replaced. -/
def subRunsAux (inRun : Bool) : List Char → List Char
  | [] => []
  | c :: rest =>
    if isTokenChar c then c :: subRunsAux false rest
    else if inRun then subRunsAux true rest
    else '_' :: subRunsAux true rest

/-- `_token_re.sub("_", x)` on the whole list. -/
def subNonToken (l : List Char) : List Char := subRunsAux false l

/-- `re.sub(r"_+", "_", x)`: collapse every run of consecutive underscores
into a single underscore.  The flag records whether the previous output
character of the current run was an underscore. -/
def collapseAux (prevUS : Bool) : List Char → List Char
  | [] => []
  | c :: rest =>
    if c = '_' then
      if prevUS then collapseAux true rest
      else '_' :: collapseAux true rest
    else c :: collapseAux false rest

/-- `re.sub(r"_+", "_", x)` on the whole list. -/
def collapseUS (l : List Char) : List Char := collapseAux false l

/-- The value of the variable `x` in `clean_token` after the line
`x = re.sub(r"_+", "_", x).strip("_")`: strip whitespace, replace
non-token runs, collapse underscores, strip underscores. -/
def x4of (l : List Char) : List Char :=
  stripEnds isUS (collapseUS (subNonToken (stripEnds isPySpace l)))

/-- `clean_token` on the character list: after the four rewriting steps,
prepend `"T_"` when the result is empty or starts with a digit
(`if x == "" or x[0].isdigit(): x = "T_" + x`). -/
def cleanTokenCore (l : List Char) : List Char :=
  match x4of l with
  | [] => ['T', '_']
  | c :: cs => if c.isDigit then 'T' :: '_' :: c :: cs else c :: cs

/-- `clean_token(x)` from `primekg_neo4j_preprocess.py` (lines 22-31):
`pd.isna` (here: `Option.none`) becomes the empty string, then the core. -/
def clean_token (x : Option String) : String :=
  ⟨cleanTokenCore (x.getD "").data⟩

/-- Normalisation shared by both arguments of `make_primekg_key`:
`"" if pd.isna(v) else str(v).strip()`. -/
def normField (x : Option String) : String :=
  match x with
  | none => ""
  | some v => pyStrip v

/-- `make_primekg_key(node_source, node_id)` from
`primekg_neo4j_preprocess.py` (lines 33-47). -/
def make_primekg_key (node_source node_id : Option String) : String :=
  let s := normField node_source
  let i := normField node_id
  if i = "" then ""
  else if ':' ∈ i.data then i
  else if s = "" then i
  else s ++ ":" ++ i

/-- The Neo4j token shape documented on `clean_token`:
`[A-Za-z_][A-Za-z0-9_]*`. -/
def isNeoToken (s : String) : Bool :=
  match s.data with
  | [] => false
  | c :: cs => (c.isAlpha || c = '_') && cs.all isTokenChar

example : clean_token (some "gene/protein") = "gene_protein" := by decide
example : clean_token (some "123abc") = "T_123abc" := by decide
example : clean_token (some "") = "T_" := by decide
example : clean_token (some "T_") = "T" := by decide
example : clean_token none = "T_" := by decide
example : clean_token (some "  a--b__c  ") = "a_b_c" := by decide
example : make_primekg_key (some "DrugBank") (some "DB01050") = "DrugBank:DB01050" := by decide
example : make_primekg_key (some "AnySource") (some "SBO:0000185") = "SBO:0000185" := by decide
example : make_primekg_key (some "") (some "X1") = "X1" := by decide
example : make_primekg_key (some "S") none = "" := by decide

/-! ## The two transform stages -/

/-- `CHUNK_SIZE` (line 15). -/
def CHUNK_SIZE : Nat := 1000000

/-- A raw line of the node source file, restricted to the five columns the
script selects; fields are the literal CSV texts. -/
structure RawNodeRow where
  node_index : String
  node_id : String
  node_source : String
  node_type : String
  node_name : String
deriving DecidableEq

/-- An in-memory node row of a pandas chunk: `none` is `NaN`. -/
structure NodeRow where
  node_index : Option String
  node_id : Option String
  node_source : Option String
  node_type : Option String
  node_name : Option String
deriving DecidableEq

/-- Text-level model of `read_csv` field parsing: an empty field is read
as `NaN` (`none`), anything else as its text.  This captures missingness
only.  Pandas additionally infers numeric dtypes per chunk, which changes
the written text of integer columns; that mechanism is modelled separately
by `readNodeChunkPandas` near the end of this file, because it makes the
written bytes depend on the batch split. -/
def naOpt (s : String) : Option String := if s = "" then none else some s

/-- Parse one raw node line into a chunk row. -/
def parseNodeRow (r : RawNodeRow) : NodeRow :=
  { node_index := naOpt r.node_index
    node_id := naOpt r.node_id
    node_source := naOpt r.node_source
    node_type := naOpt r.node_type
    node_name := naOpt r.node_name }

/-- `df.dropna(subset=["node_index", "node_id", "node_type"])` (line 76):
a row survives iff none of the three fields is `NaN`. -/
def nodeRowValid (r : NodeRow) : Bool :=
  r.node_index.isSome && r.node_id.isSome && r.node_type.isSome

/-- An output node record, fields named after the written columns
(`node_index:ID`, ..., `primekg_key`, `:LABEL`). -/
structure NodeOutRow where
  node_index_ID : Option String
  node_id : Option String
  node_source : Option String
  node_type : Option String
  node_name : Option String
  primekg_key : String
  label : String
deriving DecidableEq

/-- Derivation of one output record from a retained row (lines 79-90):
rename `node_index`, add `primekg_key` and `:LABEL` (the latter is the
sanitized `node_type` plus `";Node"`). -/
def mkNodeOut (r : NodeRow) : NodeOutRow :=
  { node_index_ID := r.node_index
    node_id := r.node_id
    node_source := r.node_source
    node_type := r.node_type
    node_name := r.node_name
    primekg_key := make_primekg_key r.node_source r.node_id
    label := clean_token r.node_type ++ ";Node" }

/-- Whole-chunk node transformation (lines 72-90): select, dropna, derive. -/
def processNodeChunk (chunk : List NodeRow) : List NodeOutRow :=
  (chunk.filter nodeRowValid).map mkNodeOut

/-- Rendering of a field by `to_csv`: `NaN` is written as the empty field. -/
def renderOpt (x : Option String) : String :=
  match x with
  | none => ""
  | some v => v

/-- Header line of the node output file. -/
def nodeHeader : List String :=
  ["node_index:ID", "node_id", "node_source", "node_type", "node_name",
   "primekg_key", ":LABEL"]

/-- One written node line: the record's fields in column order. -/
def renderNodeOut (r : NodeOutRow) : List String :=
  [renderOpt r.node_index_ID, renderOpt r.node_id, renderOpt r.node_source,
   renderOpt r.node_type, renderOpt r.node_name, r.primekg_key, r.label]

/-- The data lines produced by a list of node rows, in order. -/
def nodeLines (rows : List NodeRow) : List (List String) :=
  (processNodeChunk rows).map renderNodeOut

/-- The node write loop (lines 68-94): each chunk is transformed and
appended; the header is written only when `header_written` is still
false, i.e. before the first chunk. -/
def writeNodeChunks (headerWritten : Bool) : List (List NodeRow) → List (List String)
  | [] => []
  | c :: cs =>
    (if headerWritten then [] else [nodeHeader])
      ++ nodeLines c ++ writeNodeChunks true cs

/-- The node stage on a given chunk sequence: `header_written` starts false. -/
def nodeStage (chunks : List (List NodeRow)) : List (List String) :=
  writeNodeChunks false chunks

/-- A raw line of the edge source file, restricted to the four selected
columns. -/
structure RawEdgeRow where
  x_index : String
  y_index : String
  relation : String
  display_relation : String
deriving DecidableEq

/-- An in-memory edge row of a pandas chunk: `none` is `NaN`. -/
structure EdgeRow where
  x_index : Option String
  y_index : Option String
  relation : Option String
  display_relation : Option String
deriving DecidableEq

/-- Parse one raw edge line into a chunk row. -/
def parseEdgeRow (r : RawEdgeRow) : EdgeRow :=
  { x_index := naOpt r.x_index
    y_index := naOpt r.y_index
    relation := naOpt r.relation
    display_relation := naOpt r.display_relation }

/-- `df.dropna(subset=["x_index", "y_index", "relation"])` (line 119). -/
def edgeRowValid (r : EdgeRow) : Bool :=
  r.x_index.isSome && r.y_index.isSome && r.relation.isSome

/-- An output edge record, fields named after the written columns
(`:START_ID`, `:END_ID`, `:TYPE`, `relation`, `display_relation`). -/
structure EdgeOutRow where
  START_ID : Option String
  END_ID : Option String
  TYPE : String
  relation : Option String
  display_relation : Option String
deriving DecidableEq

/-- Derivation of one edge output record (lines 122-128): rename the index
columns, set `:TYPE` to the sanitized `relation`, reorder. -/
def mkEdgeOut (r : EdgeRow) : EdgeOutRow :=
  { START_ID := r.x_index
    END_ID := r.y_index
    TYPE := clean_token r.relation
    relation := r.relation
    display_relation := r.display_relation }

/-- Whole-chunk edge transformation (lines 116-128). -/
def processEdgeChunk (chunk : List EdgeRow) : List EdgeOutRow :=
  (chunk.filter edgeRowValid).map mkEdgeOut

/-- Header line of the edge output file. -/
def edgeHeader : List String :=
  [":START_ID", ":END_ID", ":TYPE", "relation", "display_relation"]

/-- One written edge line: the record's fields in column order. -/
def renderEdgeOut (r : EdgeOutRow) : List String :=
  [renderOpt r.START_ID, renderOpt r.END_ID, r.TYPE,
   renderOpt r.relation, renderOpt r.display_relation]

/-- The data lines produced by a list of edge rows, in order. -/
def edgeLines (rows : List EdgeRow) : List (List String) :=
  (processEdgeChunk rows).map renderEdgeOut

/-- The edge write loop (lines 112-132). -/
def writeEdgeChunks (headerWritten : Bool) : List (List EdgeRow) → List (List String)
  | [] => []
  | c :: cs =>
    (if headerWritten then [] else [edgeHeader])
      ++ edgeLines c ++ writeEdgeChunks true cs

/-- The edge stage on a given chunk sequence. -/
def edgeStage (chunks : List (List EdgeRow)) : List (List String) :=
  writeEdgeChunks false chunks

/-- The pandas chunked reader: split the row list into consecutive batches
of `b` rows (a final shorter batch allowed); an empty input yields no
batches.  For `b ≥ 1` the batches have size `b`. -/
def chunksOf (b : Nat) : List α → List (List α)
  | [] => []
  | x :: xs => (x :: xs.take (b - 1)) :: chunksOf b (xs.drop (b - 1))
termination_by l => l.length
decreasing_by
  simp only [List.length_drop, List.length_cons]
  omega

/-- The full node stage as run by the script: parse, chunk with
`CHUNK_SIZE`, transform, write. -/
def runNodeStage (raws : List RawNodeRow) : List (List String) :=
  nodeStage (chunksOf CHUNK_SIZE (raws.map parseNodeRow))

/-- The full edge stage as run by the script. -/
def runEdgeStage (raws : List RawEdgeRow) : List (List String) :=
  edgeStage (chunksOf CHUNK_SIZE (raws.map parseEdgeRow))

example :
    nodeStage [[{ node_index := some "0", node_id := some "9796",
                  node_source := some "NCBI", node_type := some "gene/protein",
                  node_name := some "PHYHIP" }]]
      = [nodeHeader,
         ["0", "9796", "NCBI", "gene/protein", "PHYHIP", "NCBI:9796",
          "gene_protein;Node"]] := by decide

example :
    edgeStage [[{ x_index := some "0", y_index := some "8889",
                  relation := some "protein_protein",
                  display_relation := some "ppi" }]]
      = [edgeHeader, ["0", "8889", "protein_protein", "protein_protein", "ppi"]] := by
  decide

/-! ## Helper lemmas about the sanitizer machinery -/

theorem mem_of_head?_eq {l : List Char} {c : Char} (h : l.head? = some c) : c ∈ l :=
  List.mem_of_mem_head? (by simp [h])

theorem mem_of_getLast?_eq {l : List Char} {c : Char} (h : l.getLast? = some c) : c ∈ l := by
  have hh : l.reverse.head? = some c := (List.head?_reverse l).trans h
  exact List.mem_reverse.mp (mem_of_head?_eq hh)

theorem dropWhile_eq_self_of_head {p : Char → Bool} {l : List Char}
    (h : ∀ c, l.head? = some c → p c = false) : l.dropWhile p = l := by
  cases l with
  | nil => rfl
  | cons a t => simp [List.dropWhile_cons, h a rfl]

theorem head_dropWhile_false {p : Char → Bool} : ∀ {l : List Char} {c : Char},
    (l.dropWhile p).head? = some c → p c = false := by
  intro l
  induction l with
  | nil => intro c h; simp [List.dropWhile] at h
  | cons a t ih =>
    intro c h
    rw [List.dropWhile_cons] at h
    by_cases ha : p a = true
    · rw [if_pos ha] at h
      exact ih h
    · rw [if_neg ha] at h
      simp at h
      rw [← h]
      simpa using ha

theorem dropTrailing_prefix (p : Char → Bool) (l : List Char) :
    ∃ t, l = dropTrailing p l ++ t := by
  refine ⟨(l.reverse.takeWhile p).reverse, ?_⟩
  unfold dropTrailing
  rw [← List.reverse_append, List.takeWhile_append_dropWhile, List.reverse_reverse]

theorem head_dropTrailing {p : Char → Bool} {l : List Char} {c : Char}
    (h : (dropTrailing p l).head? = some c) : l.head? = some c := by
  obtain ⟨t, ht⟩ := dropTrailing_prefix p l
  rw [ht]
  cases hd : dropTrailing p l with
  | nil => rw [hd] at h; simp at h
  | cons a u => rw [hd] at h; simp at h; simp [h]

theorem getLast_dropTrailing_false {p : Char → Bool} {l : List Char} {c : Char}
    (h : (dropTrailing p l).getLast? = some c) : p c = false := by
  unfold dropTrailing at h
  rw [List.getLast?_reverse] at h
  exact head_dropWhile_false h

theorem head_stripEnds_false {p : Char → Bool} {l : List Char} {c : Char}
    (h : (stripEnds p l).head? = some c) : p c = false :=
  head_dropWhile_false (head_dropTrailing h)

theorem getLast_stripEnds_false {p : Char → Bool} {l : List Char} {c : Char}
    (h : (stripEnds p l).getLast? = some c) : p c = false :=
  getLast_dropTrailing_false h

theorem mem_stripEnds {p : Char → Bool} {l : List Char} {c : Char}
    (h : c ∈ stripEnds p l) : c ∈ l := by
  unfold stripEnds dropTrailing at h
  rw [List.mem_reverse] at h
  have h2 := (List.dropWhile_sublist _).subset h
  rw [List.mem_reverse] at h2
  exact (List.dropWhile_sublist _).subset h2

theorem stripEnds_eq_self {p : Char → Bool} {l : List Char}
    (h1 : ∀ c, l.head? = some c → p c = false)
    (h2 : ∀ c, l.getLast? = some c → p c = false) : stripEnds p l = l := by
  unfold stripEnds
  rw [dropWhile_eq_self_of_head h1]
  unfold dropTrailing
  have : l.reverse.dropWhile p = l.reverse := by
    refine dropWhile_eq_self_of_head ?_
    intro c hc
    rw [List.head?_reverse] at hc
    exact h2 c hc
  rw [this, List.reverse_reverse]

theorem stripEnds_idem (p : Char → Bool) (l : List Char) :
    stripEnds p (stripEnds p l) = stripEnds p l :=
  stripEnds_eq_self (fun _ h => head_stripEnds_false h)
    (fun _ h => getLast_stripEnds_false h)

theorem mem_subRunsAux_token : ∀ {b : Bool} {l : List Char} {c : Char},
    c ∈ subRunsAux b l → isTokenChar c = true := by
  intro b l
  induction l generalizing b with
  | nil => intro c h; simp [subRunsAux] at h
  | cons a t ih =>
    intro c h
    unfold subRunsAux at h
    by_cases ha : isTokenChar a = true
    · rw [if_pos ha] at h
      rcases List.mem_cons.mp h with h | h
      · rw [h]; exact ha
      · exact ih h
    · rw [if_neg ha] at h
      cases b with
      | true => exact ih (by simpa using h)
      | false =>
        simp only [Bool.false_eq_true, if_false] at h
        rcases List.mem_cons.mp h with h | h
        · rw [h]; decide
        · exact ih h

theorem subRunsAux_eq_self {l : List Char} (h : ∀ c ∈ l, isTokenChar c = true) :
    ∀ b, subRunsAux b l = l := by
  induction l with
  | nil => intro b; rfl
  | cons a t ih =>
    intro b
    unfold subRunsAux
    rw [if_pos (h a (List.mem_cons_self a t))]
    rw [ih (fun c hc => h c (List.mem_cons_of_mem a hc)) false]

/-- No two consecutive underscores. -/
def noDoubleUS : List Char → Bool
  | [] => true
  | [_] => true
  | a :: b :: rest => !(a = '_' && b = '_') && noDoubleUS (b :: rest)

theorem noDoubleUS_cons {a : Char} {l : List Char} :
    noDoubleUS (a :: l) = true ↔
      ((∀ d, l.head? = some d → ¬(a = '_' ∧ d = '_')) ∧ noDoubleUS l = true) := by
  cases l with
  | nil => simp [noDoubleUS]
  | cons b t =>
    show (!(a = '_' && b = '_') && noDoubleUS (b :: t)) = true ↔ _
    constructor
    · intro h
      simp at h
      refine ⟨?_, h.2⟩
      intro d hd hcontra
      simp at hd
      rcases h.1 with h1 | h1
      · exact h1 hcontra.1
      · apply h1
        rw [hd]
        exact hcontra.2
    · intro h
      simp
      refine ⟨?_, h.2⟩
      by_cases ha : a = '_'
      · right
        intro hb
        exact h.1 b rfl ⟨ha, hb⟩
      · left
        exact ha

theorem noDoubleUS_tail {a : Char} {l : List Char} (h : noDoubleUS (a :: l) = true) :
    noDoubleUS l = true :=
  (noDoubleUS_cons.mp h).2

theorem noDoubleUS_dropWhile {p : Char → Bool} {l : List Char}
    (h : noDoubleUS l = true) : noDoubleUS (l.dropWhile p) = true := by
  induction l with
  | nil => exact h
  | cons a t ih =>
    rw [List.dropWhile_cons]
    by_cases ha : p a = true
    · rw [if_pos ha]
      exact ih (noDoubleUS_tail h)
    · rw [if_neg ha]
      exact h

theorem noDoubleUS_append_left : ∀ {l t : List Char},
    noDoubleUS (l ++ t) = true → noDoubleUS l = true := by
  intro l
  induction l with
  | nil => intro t _; rfl
  | cons a u ih =>
    intro t h
    rw [List.cons_append] at h
    obtain ⟨hhead, hrest⟩ := noDoubleUS_cons.mp h
    refine noDoubleUS_cons.mpr ⟨?_, ih hrest⟩
    intro d hd
    refine hhead d ?_
    cases u with
    | nil => simp at hd
    | cons e v => simp at hd; simp [hd]

theorem noDoubleUS_dropTrailing {p : Char → Bool} {l : List Char}
    (h : noDoubleUS l = true) : noDoubleUS (dropTrailing p l) = true := by
  obtain ⟨t, ht⟩ := dropTrailing_prefix p l
  rw [ht] at h
  exact noDoubleUS_append_left h

theorem noDoubleUS_stripEnds {p : Char → Bool} {l : List Char}
    (h : noDoubleUS l = true) : noDoubleUS (stripEnds p l) = true :=
  noDoubleUS_dropTrailing (noDoubleUS_dropWhile h)

theorem collapseAux_noDD : ∀ (l : List Char),
    (∀ b, noDoubleUS (collapseAux b l) = true) ∧
      (collapseAux true l).head? ≠ some '_' := by
  intro l
  induction l with
  | nil => exact ⟨fun b => rfl, by simp [collapseAux]⟩
  | cons c rest ih =>
    obtain ⟨ih1, ih2⟩ := ih
    constructor
    · intro b
      unfold collapseAux
      by_cases hc : c = '_'
      · rw [if_pos hc]
        cases b with
        | true => simpa using ih1 true
        | false =>
          simp only [Bool.false_eq_true, if_false]
          refine noDoubleUS_cons.mpr ⟨?_, ih1 true⟩
          intro d hd hcontra
          exact ih2 (by rw [hd, hcontra.2])
      · rw [if_neg hc]
        refine noDoubleUS_cons.mpr ⟨?_, ih1 false⟩
        intro d _ hcontra
        exact hc hcontra.1
    · unfold collapseAux
      by_cases hc : c = '_'
      · rw [if_pos hc]
        simpa using ih2
      · rw [if_neg hc]
        simp [hc]

theorem collapseAux_eq_self : ∀ (l : List Char) (b : Bool),
    noDoubleUS l = true → (b = true → l.head? ≠ some '_') → collapseAux b l = l := by
  intro l
  induction l with
  | nil => intro b _ _; rfl
  | cons c rest ih =>
    intro b hnd hb
    unfold collapseAux
    by_cases hc : c = '_'
    · subst hc
      rw [if_pos rfl]
      cases b with
      | true => exact absurd rfl (hb rfl)
      | false =>
        simp only [Bool.false_eq_true, if_false]
        have hrest : collapseAux true rest = rest := by
          refine ih true (noDoubleUS_tail hnd) ?_
          intro _ hh
          exact (noDoubleUS_cons.mp hnd).1 '_' hh ⟨rfl, rfl⟩
        rw [hrest]
    · rw [if_neg hc]
      have hrest := ih false (noDoubleUS_tail hnd) (by simp)
      rw [hrest]

theorem mem_collapseAux : ∀ {b : Bool} {l : List Char} {c : Char},
    c ∈ collapseAux b l → c ∈ l := by
  intro b l
  induction l generalizing b with
  | nil => intro c h; simp [collapseAux] at h
  | cons a t ih =>
    intro c h
    unfold collapseAux at h
    by_cases ha : a = '_'
    · rw [if_pos ha] at h
      cases b with
      | true =>
        simp only [if_true] at h
        exact List.mem_cons_of_mem a (ih h)
      | false =>
        simp only [Bool.false_eq_true, if_false] at h
        rcases List.mem_cons.mp h with h | h
        · rw [h, ← ha]; exact List.mem_cons_self a t
        · exact List.mem_cons_of_mem a (ih h)
    · rw [if_neg ha] at h
      rcases List.mem_cons.mp h with h | h
      · rw [h]; exact List.mem_cons_self a t
      · exact List.mem_cons_of_mem a (ih h)

theorem x4of_all_token {l : List Char} : ∀ c ∈ x4of l, isTokenChar c = true := by
  intro c hc
  unfold x4of at hc
  have h1 := mem_stripEnds hc
  unfold collapseUS at h1
  have h2 := mem_collapseAux h1
  exact mem_subRunsAux_token h2

theorem x4of_noDD (l : List Char) : noDoubleUS (x4of l) = true := by
  unfold x4of collapseUS
  exact noDoubleUS_stripEnds ((collapseAux_noDD _).1 false)

theorem x4of_head {l : List Char} {c : Char} (h : (x4of l).head? = some c) :
    c ≠ '_' := by
  have := head_stripEnds_false h
  simpa [isUS] using this

theorem x4of_getLast {l : List Char} {c : Char} (h : (x4of l).getLast? = some c) :
    c ≠ '_' := by
  have := getLast_stripEnds_false h
  simpa [isUS] using this

theorem token_not_space {c : Char} (h : isTokenChar c = true) : isPySpace c = false := by
  cases hs : isPySpace c with
  | false => rfl
  | true =>
    exfalso
    have hor : c = ' ' ∨ c = '\t' ∨ c = '\n' ∨ c = '\r' ∨ c = '\x0b' ∨ c = '\x0c' := by
      simpa [isPySpace, or_assoc] using hs
    rcases hor with h1 | h1 | h1 | h1 | h1 | h1 <;> subst h1 <;> exact absurd h (by decide)

/-- A character list on which every step of `clean_token` is the identity:
nonempty, only token characters, no doubled underscore, head neither
underscore nor digit, last character not an underscore. -/
theorem cleanTokenCore_fixpoint {m : List Char}
    (hne : m ≠ [])
    (htok : ∀ c ∈ m, isTokenChar c = true)
    (hnd : noDoubleUS m = true)
    (hhead : ∀ c, m.head? = some c → c ≠ '_' ∧ c.isDigit = false)
    (hlast : ∀ c, m.getLast? = some c → c ≠ '_') :
    cleanTokenCore m = m := by
  have h1 : stripEnds isPySpace m = m := by
    refine stripEnds_eq_self ?_ ?_
    · intro c hc
      exact token_not_space (htok c (mem_of_head?_eq hc))
    · intro c hc
      exact token_not_space (htok c (mem_of_getLast?_eq hc))
  have h2 : subNonToken m = m := subRunsAux_eq_self htok false
  have h3 : collapseUS m = m := collapseAux_eq_self m false hnd (by simp)
  have h4 : stripEnds isUS m = m := by
    refine stripEnds_eq_self ?_ ?_
    · intro c hc
      simpa [isUS] using (hhead c hc).1
    · intro c hc
      simpa [isUS] using hlast c hc
  have hx4 : x4of m = m := by
    unfold x4of
    rw [h1, h2, h3, h4]
  unfold cleanTokenCore
  rw [hx4]
  cases m with
  | nil => exact absurd rfl hne
  | cons c cs =>
    have hd : c.isDigit = false := (hhead c rfl).2
    simp [hd]

theorem isNeoToken_mk_cons (c : Char) (cs : List Char) :
    isNeoToken ⟨c :: cs⟩ = ((c.isAlpha || c = '_') && cs.all isTokenChar) := rfl

theorem mk_cons_ne_empty (c : Char) (cs : List Char) : (⟨c :: cs⟩ : String) ≠ "" := by
  intro h
  exact List.noConfusion (String.ext_iff.mp h)

/-- C1: for every input (null included, treated as the empty string),
`clean_token` returns a nonempty token matching `[A-Za-z_][A-Za-z0-9_]*`;
it is total by construction. -/
theorem cleanTokenCore_wellformed (m : List Char) :
    isNeoToken ⟨cleanTokenCore m⟩ = true ∧ (⟨cleanTokenCore m⟩ : String) ≠ "" := by
  unfold cleanTokenCore
  cases hx : x4of m with
  | nil => exact ⟨by decide, by decide⟩
  | cons c cs =>
    have htok : ∀ d ∈ c :: cs, isTokenChar d = true := by
      rw [← hx]; exact x4of_all_token
    show isNeoToken ⟨if c.isDigit = true then 'T' :: '_' :: c :: cs else c :: cs⟩ = true ∧
      (⟨if c.isDigit = true then 'T' :: '_' :: c :: cs else c :: cs⟩ : String) ≠ ""
    by_cases hd : c.isDigit = true
    · rw [if_pos hd]
      refine ⟨?_, mk_cons_ne_empty _ _⟩
      rw [isNeoToken_mk_cons, Bool.and_eq_true]
      refine ⟨by decide, ?_⟩
      rw [List.all_eq_true]
      intro d hdm
      simp only [List.mem_cons] at hdm
      rcases hdm with h1 | h1 | h1
      · rw [h1]; decide
      · rw [h1]; exact htok c (List.mem_cons_self c cs)
      · exact htok d (List.mem_cons_of_mem c h1)
    · rw [if_neg hd]
      refine ⟨?_, mk_cons_ne_empty _ _⟩
      rw [isNeoToken_mk_cons, Bool.and_eq_true]
      constructor
      · have hc := htok c (List.mem_cons_self c cs)
        unfold isTokenChar at hc
        rcases Bool.or_eq_true_iff.mp hc with ha | hu
        · have hb : (c.isAlpha || c.isDigit) = true := ha
          rcases Bool.or_eq_true_iff.mp hb with h1 | h1
          · rw [h1]; rfl
          · exact absurd h1 hd
        · rw [Bool.or_eq_true_iff]
          right
          exact hu
      · rw [List.all_eq_true]
        intro d hdm
        exact htok d (List.mem_cons_of_mem c hdm)

/-- C1: for every input (null included, treated as the empty string),
`clean_token` returns a nonempty token matching `[A-Za-z_][A-Za-z0-9_]*`;
it is total by construction. -/
theorem clean_token_total_wellformed (x : Option String) :
    isNeoToken (clean_token x) = true ∧ clean_token x ≠ "" ∧
      clean_token none = clean_token (some "") := by
  refine ⟨?_, ?_, rfl⟩
  · unfold clean_token
    exact (cleanTokenCore_wellformed ((x.getD "").data)).1
  · unfold clean_token
    exact (cleanTokenCore_wellformed ((x.getD "").data)).2

/-- C2, counterexample: `clean_token` is not idempotent on the code as
written; the empty string sanitizes to `"T_"`, which resanitizes to `"T"`. -/
theorem clean_token_not_idempotent :
    ¬ clean_token (some (clean_token (some ""))) = clean_token (some "") := by
  decide

theorem cleanTokenCore_idem {l : List Char} (h : cleanTokenCore l ≠ ['T', '_']) :
    cleanTokenCore (cleanTokenCore l) = cleanTokenCore l := by
  cases hx : x4of l with
  | nil =>
    exfalso
    apply h
    unfold cleanTokenCore
    rw [hx]
  | cons c cs =>
    have htok : ∀ d ∈ c :: cs, isTokenChar d = true := by
      rw [← hx]; exact x4of_all_token
    have hnd : noDoubleUS (c :: cs) = true := by rw [← hx]; exact x4of_noDD l
    have hlast : ∀ d, (c :: cs).getLast? = some d → d ≠ '_' := by
      intro d hdl
      refine x4of_getLast (l := l) ?_
      rw [hx]
      exact hdl
    have hheadc : c ≠ '_' := x4of_head (l := l) (by rw [hx]; rfl)
    have hy : cleanTokenCore l = if c.isDigit then 'T' :: '_' :: c :: cs else c :: cs := by
      unfold cleanTokenCore
      rw [hx]
    by_cases hd : c.isDigit = true
    · rw [hy, if_pos hd]
      apply cleanTokenCore_fixpoint
      · simp
      · intro d hdm
        simp only [List.mem_cons] at hdm
        rcases hdm with h1 | h1 | h1 | h1
        · rw [h1]; decide
        · rw [h1]; decide
        · rw [h1]; exact htok c (List.mem_cons_self c cs)
        · exact htok d (List.mem_cons_of_mem c h1)
      · refine noDoubleUS_cons.mpr ⟨?_, ?_⟩
        · intro d _ hcontra
          exact absurd hcontra.1 (by decide)
        · refine noDoubleUS_cons.mpr ⟨?_, hnd⟩
          intro d hdh hcontra
          have hdc : c = d := by simpa using hdh
          apply hheadc
          rw [hdc]
          exact hcontra.2
      · intro d hdh
        have hdT : 'T' = d := by simpa using hdh
        rw [← hdT]
        exact ⟨by decide, by decide⟩
      · intro d hdl
        rw [List.getLast?_cons_cons, List.getLast?_cons_cons] at hdl
        exact hlast d hdl
    · have hd2 : c.isDigit = false := by simpa using hd
      rw [hy, if_neg hd]
      apply cleanTokenCore_fixpoint
      · simp
      · exact htok
      · exact hnd
      · intro d hdh
        have hdc : c = d := by simpa using hdh
        rw [← hdc]
        exact ⟨hheadc, hd2⟩
      · exact hlast

/-- C2, amended: `clean_token` is idempotent on every input whose
sanitized form is not exactly the bare marker `"T_"` (equivalently:
whenever the cleaned core of the input is nonempty). -/
theorem clean_token_idem_of_ne_marker (x : Option String)
    (h : clean_token x ≠ "T_") :
    clean_token (some (clean_token x)) = clean_token x := by
  have hne : cleanTokenCore ((x.getD "").data) ≠ ['T', '_'] := by
    intro hc
    apply h
    unfold clean_token
    rw [hc]
  unfold clean_token
  exact congrArg String.mk (cleanTokenCore_idem hne)

theorem clean_token_idem_witness :
    clean_token (some "gene/protein") ≠ "T_" ∧
      clean_token (some (clean_token (some "gene/protein")))
        = clean_token (some "gene/protein") :=
  ⟨by decide, clean_token_idem_of_ne_marker (some "gene/protein") (by decide)⟩

/-! ## Key builder lemmas -/

theorem normField_some (t : String) : normField (some t) = pyStrip t := rfl

theorem pyStrip_eq_self {t : String}
    (h1 : ∀ c, t.data.head? = some c → isPySpace c = false)
    (h2 : ∀ c, t.data.getLast? = some c → isPySpace c = false) : pyStrip t = t := by
  cases t with
  | mk d => exact congrArg String.mk (stripEnds_eq_self h1 h2)

theorem normField_pyStrip (x : Option String) : pyStrip (normField x) = normField x := by
  cases x with
  | none => rfl
  | some v =>
    rw [normField_some]
    unfold pyStrip
    exact congrArg String.mk (stripEnds_idem isPySpace v.data)

theorem normField_fix (x : Option String) :
    normField (some (normField x)) = normField x := by
  rw [normField_some]
  exact normField_pyStrip x

theorem normField_head_not_space {x : Option String} {c : Char}
    (h : (normField x).data.head? = some c) : isPySpace c = false := by
  cases x with
  | none => exact Option.noConfusion h
  | some v => exact head_stripEnds_false h

theorem normField_getLast_not_space {x : Option String} {c : Char}
    (h : (normField x).data.getLast? = some c) : isPySpace c = false := by
  cases x with
  | none => exact Option.noConfusion h
  | some v => exact getLast_stripEnds_false h

theorem data_ne_nil_of_ne_empty {t : String} (h : t ≠ "") : t.data ≠ [] := by
  intro hd
  apply h
  cases t with
  | mk d =>
    have hd2 : d = [] := hd
    rw [hd2]

theorem exists_cons_of_ne_nil {α : Type} {u : List α} (h : u ≠ []) : ∃ e v, u = e :: v := by
  cases u with
  | nil => exact absurd rfl h
  | cons e v => exact ⟨e, v, rfl⟩

theorem getLast?_isSome_of_ne_nil {u : List Char} (h : u ≠ []) :
    ∃ d, u.getLast? = some d := by
  obtain ⟨e, v, rfl⟩ := exists_cons_of_ne_nil h
  clear h
  induction v generalizing e with
  | nil => exact ⟨e, rfl⟩
  | cons f w ih =>
    rw [List.getLast?_cons_cons]
    exact ih f

theorem key_data (a b : String) :
    (a ++ ":" ++ b).data = a.data ++ ':' :: b.data := by
  rw [String.data_append, String.data_append, List.append_assoc]
  rfl

theorem pyStrip_key_concat {a b : String} (ha : a ≠ "") (hb : b ≠ "")
    (hha : ∀ c, a.data.head? = some c → isPySpace c = false)
    (hlb : ∀ c, b.data.getLast? = some c → isPySpace c = false) :
    pyStrip (a ++ ":" ++ b) = a ++ ":" ++ b := by
  apply pyStrip_eq_self
  · intro c hc
    rw [key_data] at hc
    obtain ⟨e, u, had⟩ := exists_cons_of_ne_nil (data_ne_nil_of_ne_empty ha)
    rw [had, List.cons_append] at hc
    simp at hc
    refine hha c ?_
    rw [had]
    simpa using hc
  · intro c hc
    rw [key_data] at hc
    obtain ⟨d, hdl⟩ := getLast?_isSome_of_ne_nil (data_ne_nil_of_ne_empty hb)
    have hall : (a.data ++ ':' :: b.data).getLast? = some d := by
      rw [List.getLast?_append]
      obtain ⟨e, v, hbv⟩ := exists_cons_of_ne_nil (data_ne_nil_of_ne_empty hb)
      have h2 : (':' :: b.data).getLast? = some d := by
        rw [hbv, List.getLast?_cons_cons, ← hbv]
        exact hdl
      rw [h2]
      rfl
    rw [hall] at hc
    have hdc : d = c := by simpa using hc
    rw [hdc] at hdl
    exact hlb c hdl

theorem mpk_eq_empty (s i : Option String) (hi : normField i = "") :
    make_primekg_key s i = "" := by
  simp only [make_primekg_key]
  rw [if_pos hi]

theorem mpk_eq_of_colon (s i : Option String) (hc : ':' ∈ (normField i).data) :
    make_primekg_key s i = normField i := by
  have hne : normField i ≠ "" := by
    intro h0
    rw [h0] at hc
    exact absurd hc (by decide)
  simp only [make_primekg_key]
  rw [if_neg hne, if_pos hc]

theorem mpk_eq_of_src_empty (s i : Option String) (hs : normField s = "") :
    make_primekg_key s i = normField i := by
  simp only [make_primekg_key]
  by_cases hi : normField i = ""
  · rw [if_pos hi, hi]
  · rw [if_neg hi]
    by_cases hc : ':' ∈ (normField i).data
    · rw [if_pos hc]
    · rw [if_neg hc, if_pos hs]

theorem mpk_eq_concat (s i : Option String) (hi : normField i ≠ "")
    (hc : ':' ∉ (normField i).data) (hs : normField s ≠ "") :
    make_primekg_key s i = normField s ++ ":" ++ normField i := by
  simp only [make_primekg_key]
  rw [if_neg hi, if_neg hc, if_neg hs]

/-- C3: `make_primekg_key` returns the empty string when the trimmed id is
empty; the trimmed id itself when it contains a colon or when the trimmed
source is empty; and `source:id` otherwise — with the three concrete
examples from the specification. -/
theorem make_primekg_key_spec :
    (∀ s i : Option String, normField i = "" → make_primekg_key s i = "")
    ∧ (∀ s i : Option String, ':' ∈ (normField i).data →
        make_primekg_key s i = normField i)
    ∧ (∀ s i : Option String, normField s = "" →
        make_primekg_key s i = normField i)
    ∧ (∀ s i : Option String, normField i ≠ "" → ':' ∉ (normField i).data →
        normField s ≠ "" →
        make_primekg_key s i = normField s ++ ":" ++ normField i)
    ∧ make_primekg_key (some "DrugBank") (some "DB01050") = "DrugBank:DB01050"
    ∧ make_primekg_key (some "AnySource") (some "SBO:0000185") = "SBO:0000185"
    ∧ make_primekg_key (some "") (some "X1") = "X1" := by
  exact ⟨mpk_eq_empty, mpk_eq_of_colon, mpk_eq_of_src_empty, mpk_eq_concat,
    by decide, by decide, by decide⟩

theorem make_primekg_key_spec_witness :
    normField (some " ") = "" ∧ make_primekg_key (some "S") (some " ") = "" :=
  ⟨by decide, make_primekg_key_spec.1 (some "S") (some " ") (by decide)⟩

/-- C9: `make_primekg_key` is idempotent in its id argument: feeding the
built key back through the builder with the same source returns it
unchanged. -/
theorem make_primekg_key_idem_in_id (s i : Option String) :
    make_primekg_key s (some (make_primekg_key s i)) = make_primekg_key s i := by
  by_cases hi : normField i = ""
  · rw [mpk_eq_empty s i hi]
    exact mpk_eq_empty s (some "") (by decide)
  · by_cases hc : ':' ∈ (normField i).data
    · rw [mpk_eq_of_colon s i hc]
      have h2 : ':' ∈ (normField (some (normField i))).data := by
        rw [normField_fix]
        exact hc
      rw [mpk_eq_of_colon s (some (normField i)) h2, normField_fix]
    · by_cases hs : normField s = ""
      · rw [mpk_eq_of_src_empty s i hs]
        rw [mpk_eq_of_src_empty s (some (normField i)) hs, normField_fix]
      · rw [mpk_eq_concat s i hi hc hs]
        have hkey : normField (some (normField s ++ ":" ++ normField i))
            = normField s ++ ":" ++ normField i := by
          rw [normField_some]
          exact pyStrip_key_concat hs hi
            (fun c h => normField_head_not_space h)
            (fun c h => normField_getLast_not_space h)
        have hc2 : ':' ∈ (normField (some (normField s ++ ":" ++ normField i))).data := by
          rw [hkey, key_data]
          exact List.mem_append_right _ (List.mem_cons_self _ _)
        rw [mpk_eq_of_colon s (some (normField s ++ ":" ++ normField i)) hc2, hkey]

/-! ## Pipeline lemmas -/

theorem processNodeChunk_append (a b : List NodeRow) :
    processNodeChunk (a ++ b) = processNodeChunk a ++ processNodeChunk b := by
  unfold processNodeChunk
  rw [List.filter_append, List.map_append]

theorem processEdgeChunk_append (a b : List EdgeRow) :
    processEdgeChunk (a ++ b) = processEdgeChunk a ++ processEdgeChunk b := by
  unfold processEdgeChunk
  rw [List.filter_append, List.map_append]

theorem nodeLines_append (a b : List NodeRow) :
    nodeLines (a ++ b) = nodeLines a ++ nodeLines b := by
  unfold nodeLines
  rw [processNodeChunk_append, List.map_append]

theorem edgeLines_append (a b : List EdgeRow) :
    edgeLines (a ++ b) = edgeLines a ++ edgeLines b := by
  unfold edgeLines
  rw [processEdgeChunk_append, List.map_append]

theorem writeNodeChunks_true (cs : List (List NodeRow)) :
    writeNodeChunks true cs = nodeLines cs.flatten := by
  induction cs with
  | nil => rfl
  | cons c cs ih => simp [writeNodeChunks, ih, List.flatten_cons, nodeLines_append]

theorem writeEdgeChunks_true (cs : List (List EdgeRow)) :
    writeEdgeChunks true cs = edgeLines cs.flatten := by
  induction cs with
  | nil => rfl
  | cons c cs ih => simp [writeEdgeChunks, ih, List.flatten_cons, edgeLines_append]

theorem nodeStage_cons (c : List NodeRow) (cs : List (List NodeRow)) :
    nodeStage (c :: cs) = nodeHeader :: nodeLines (c :: cs).flatten := by
  unfold nodeStage
  simp [writeNodeChunks, writeNodeChunks_true, List.flatten_cons, nodeLines_append]

theorem edgeStage_cons (c : List EdgeRow) (cs : List (List EdgeRow)) :
    edgeStage (c :: cs) = edgeHeader :: edgeLines (c :: cs).flatten := by
  unfold edgeStage
  simp [writeEdgeChunks, writeEdgeChunks_true, List.flatten_cons, edgeLines_append]

theorem chunksOf_nil {α : Type} (b : Nat) : chunksOf b ([] : List α) = [] := by
  rw [chunksOf]

theorem flatten_chunksOf_le {α : Type} (b : Nat) :
    ∀ (n : Nat) (l : List α), l.length ≤ n → (chunksOf b l).flatten = l := by
  intro n
  induction n with
  | zero =>
    intro l hl
    have h0 : l = [] := List.length_eq_zero.mp (Nat.le_zero.mp hl)
    rw [h0, chunksOf_nil]
    rfl
  | succ n ih =>
    intro l hl
    cases l with
    | nil =>
      rw [chunksOf_nil]
      rfl
    | cons x xs =>
      rw [chunksOf, List.flatten_cons]
      rw [ih (xs.drop (b - 1)) ?_]
      · rw [List.cons_append, List.take_append_drop]
      · have hd := List.length_drop (b - 1) xs
        simp only [List.length_cons] at hl
        omega

theorem chunksOf_flatten {α : Type} (b : Nat) (l : List α) :
    (chunksOf b l).flatten = l :=
  flatten_chunksOf_le b l.length l (Nat.le_refl _)

theorem nodeStage_chunks_ne_nil (b : Nat) {rows : List NodeRow} (h : rows ≠ []) :
    nodeStage (chunksOf b rows) = nodeHeader :: nodeLines rows := by
  obtain ⟨x, xs, rfl⟩ := exists_cons_of_ne_nil h
  have hch : chunksOf b (x :: xs)
      = (x :: xs.take (b - 1)) :: chunksOf b (xs.drop (b - 1)) := by
    rw [chunksOf]
  rw [hch, nodeStage_cons, ← hch, chunksOf_flatten]

theorem edgeStage_chunks_ne_nil (b : Nat) {rows : List EdgeRow} (h : rows ≠ []) :
    edgeStage (chunksOf b rows) = edgeHeader :: edgeLines rows := by
  obtain ⟨x, xs, rfl⟩ := exists_cons_of_ne_nil h
  have hch : chunksOf b (x :: xs)
      = (x :: xs.take (b - 1)) :: chunksOf b (xs.drop (b - 1)) := by
    rw [chunksOf]
  rw [hch, edgeStage_cons, ← hch, chunksOf_flatten]

/-- Example rows used by the concrete witnesses below. -/
def sampleNodeRow : NodeRow :=
  { node_index := some "0", node_id := some "9796", node_source := some "NCBI",
    node_type := some "gene/protein", node_name := some "PHYHIP" }

/-- A node row with a missing `node_id`, hence dropped by validation. -/
def badNodeRow : NodeRow :=
  { node_index := some "2", node_id := none, node_source := some "X",
    node_type := some "drug", node_name := some "n" }

/-- Example edge row used by the concrete witnesses below. -/
def sampleEdgeRow : EdgeRow :=
  { x_index := some "0", y_index := some "8889",
    relation := some "protein_protein", display_relation := some "ppi" }

theorem renderOpt_naOpt_ne {s : String} (h : (naOpt s).isSome = true) :
    renderOpt (naOpt s) ≠ "" := by
  unfold naOpt at *
  by_cases hs : s = ""
  · rw [if_pos hs] at h
    exact Option.noConfusion (Option.isSome_iff_exists.mp h).choose_spec
  · rw [if_neg hs]
    exact hs

theorem mem_processNodeChunk {rows : List NodeRow} {o : NodeOutRow}
    (ho : o ∈ processNodeChunk rows) :
    ∃ r ∈ rows, nodeRowValid r = true ∧ mkNodeOut r = o := by
  unfold processNodeChunk at ho
  obtain ⟨r, hr, hro⟩ := List.mem_map.mp ho
  exact ⟨r, List.mem_of_mem_filter hr, List.of_mem_filter hr, hro⟩

theorem mem_processEdgeChunk {rows : List EdgeRow} {o : EdgeOutRow}
    (ho : o ∈ processEdgeChunk rows) :
    ∃ r ∈ rows, edgeRowValid r = true ∧ mkEdgeOut r = o := by
  unfold processEdgeChunk at ho
  obtain ⟨r, hr, hro⟩ := List.mem_map.mp ho
  exact ⟨r, List.mem_of_mem_filter hr, List.of_mem_filter hr, hro⟩

/-- C4: every emitted node record has its three required fields present
(and, at text level, non-empty); a row missing `node_index`, `node_id` or
`node_type` contributes nothing to the output, while a valid row is kept
in place; likewise for `x_index`, `y_index`, `relation` on edges. -/
theorem required_fields_invariant :
    (∀ rows : List NodeRow, ∀ o ∈ processNodeChunk rows,
      o.node_index_ID.isSome = true ∧ o.node_id.isSome = true
        ∧ o.node_type.isSome = true)
    ∧ (∀ raws : List RawNodeRow, ∀ o ∈ processNodeChunk (raws.map parseNodeRow),
      renderOpt o.node_index_ID ≠ "" ∧ renderOpt o.node_id ≠ ""
        ∧ renderOpt o.node_type ≠ "")
    ∧ (∀ (pre post : List NodeRow) (r : NodeRow),
      r.node_index = none ∨ r.node_id = none ∨ r.node_type = none →
      processNodeChunk (pre ++ r :: post) = processNodeChunk (pre ++ post))
    ∧ (∀ (pre post : List NodeRow) (r : NodeRow),
      r.node_index.isSome = true → r.node_id.isSome = true →
      r.node_type.isSome = true →
      processNodeChunk (pre ++ r :: post)
        = processNodeChunk pre ++ mkNodeOut r :: processNodeChunk post)
    ∧ (∀ rows : List EdgeRow, ∀ o ∈ processEdgeChunk rows,
      o.START_ID.isSome = true ∧ o.END_ID.isSome = true
        ∧ o.relation.isSome = true)
    ∧ (∀ (pre post : List EdgeRow) (r : EdgeRow),
      r.x_index = none ∨ r.y_index = none ∨ r.relation = none →
      processEdgeChunk (pre ++ r :: post) = processEdgeChunk (pre ++ post)) := by
  refine ⟨?_, ?_, ?_, ?_, ?_, ?_⟩
  · intro rows o ho
    obtain ⟨r, _, hv, rfl⟩ := mem_processNodeChunk ho
    unfold nodeRowValid at hv
    simp only [Bool.and_eq_true] at hv
    exact ⟨hv.1.1, hv.1.2, hv.2⟩
  · intro raws o ho
    obtain ⟨r, hrmem, hv, rfl⟩ := mem_processNodeChunk ho
    obtain ⟨raw, _, rfl⟩ := List.mem_map.mp hrmem
    unfold nodeRowValid at hv
    simp only [Bool.and_eq_true] at hv
    exact ⟨renderOpt_naOpt_ne hv.1.1, renderOpt_naOpt_ne hv.1.2,
      renderOpt_naOpt_ne hv.2⟩
  · intro pre post r hmiss
    have hv : nodeRowValid r = false := by
      unfold nodeRowValid
      rcases hmiss with h1 | h1 | h1 <;> rw [h1] <;> simp
    unfold processNodeChunk
    rw [List.filter_append, List.filter_append, List.filter_cons, hv]
    simp
  · intro pre post r h1 h2 h3
    have hv : nodeRowValid r = true := by
      unfold nodeRowValid
      rw [h1, h2, h3]
      rfl
    unfold processNodeChunk
    rw [List.filter_append, List.filter_cons, hv]
    simp
  · intro rows o ho
    obtain ⟨r, _, hv, rfl⟩ := mem_processEdgeChunk ho
    unfold edgeRowValid at hv
    simp only [Bool.and_eq_true] at hv
    exact ⟨hv.1.1, hv.1.2, hv.2⟩
  · intro pre post r hmiss
    have hv : edgeRowValid r = false := by
      unfold edgeRowValid
      rcases hmiss with h1 | h1 | h1 <;> rw [h1] <;> simp
    unfold processEdgeChunk
    rw [List.filter_append, List.filter_append, List.filter_cons, hv]
    simp

theorem required_fields_witness :
    (mkNodeOut sampleNodeRow).node_index_ID.isSome = true
      ∧ (mkNodeOut sampleNodeRow).node_id.isSome = true
      ∧ (mkNodeOut sampleNodeRow).node_type.isSome = true :=
  required_fields_invariant.1 [sampleNodeRow] (mkNodeOut sampleNodeRow) (by decide)

/-- A node row whose `node_type` is `"gene/protein"`. -/
def geneNodeRow : NodeRow :=
  { node_index := some "1", node_id := some "a", node_source := none,
    node_type := some "gene/protein", node_name := none }

/-- A node row whose `node_type` is the digit-leading `"123abc"`. -/
def digitNodeRow : NodeRow :=
  { node_index := some "1", node_id := some "a", node_source := none,
    node_type := some "123abc", node_name := none }

/-- C5: for every retained node row, the `:LABEL` value is the sanitized
`node_type` followed by `";Node"`; in particular `"gene/protein"` yields
`"gene_protein;Node"` and `"123abc"` yields `"T_123abc;Node"`. -/
theorem label_column_spec :
    (∀ rows : List NodeRow, ∀ o ∈ processNodeChunk rows,
      o.label = clean_token o.node_type ++ ";Node")
    ∧ (mkNodeOut geneNodeRow).label = "gene_protein;Node"
    ∧ (mkNodeOut digitNodeRow).label = "T_123abc;Node" := by
  refine ⟨?_, by decide, by decide⟩
  intro rows o ho
  obtain ⟨r, _, _, rfl⟩ := mem_processNodeChunk ho
  rfl

theorem label_column_witness :
    (mkNodeOut sampleNodeRow).label
      = clean_token (mkNodeOut sampleNodeRow).node_type ++ ";Node" :=
  label_column_spec.1 [sampleNodeRow] (mkNodeOut sampleNodeRow) (by decide)

/-- C6: the node file is the fixed seven-column header followed by data
lines, the edge file the fixed five-column header followed by data lines;
whatever the (nonempty) batch split, the header appears exactly once,
before the first batch, and every data line lists the record's fields in
the fixed column order. -/
theorem output_layout (nchunks : List (List NodeRow)) (echunks : List (List EdgeRow))
    (hn : nchunks ≠ []) (he : echunks ≠ []) :
    nodeStage nchunks = nodeHeader :: nodeLines nchunks.flatten
    ∧ edgeStage echunks = edgeHeader :: edgeLines echunks.flatten
    ∧ nodeHeader = ["node_index:ID", "node_id", "node_source", "node_type",
        "node_name", "primekg_key", ":LABEL"]
    ∧ edgeHeader = [":START_ID", ":END_ID", ":TYPE", "relation",
        "display_relation"]
    ∧ (∀ r : NodeOutRow, renderNodeOut r =
        [renderOpt r.node_index_ID, renderOpt r.node_id, renderOpt r.node_source,
         renderOpt r.node_type, renderOpt r.node_name, r.primekg_key, r.label])
    ∧ (∀ r : EdgeOutRow, renderEdgeOut r =
        [renderOpt r.START_ID, renderOpt r.END_ID, r.TYPE,
         renderOpt r.relation, renderOpt r.display_relation]) := by
  refine ⟨?_, ?_, rfl, rfl, fun r => rfl, fun r => rfl⟩
  · obtain ⟨c, cs, rfl⟩ := exists_cons_of_ne_nil hn
    exact nodeStage_cons c cs
  · obtain ⟨c, cs, rfl⟩ := exists_cons_of_ne_nil he
    exact edgeStage_cons c cs

theorem output_layout_witness :
    nodeStage [[sampleNodeRow], [badNodeRow]]
      = nodeHeader :: nodeLines [sampleNodeRow, badNodeRow]
    ∧ edgeStage [[sampleEdgeRow]] = edgeHeader :: edgeLines [sampleEdgeRow] :=
  ⟨(output_layout [[sampleNodeRow], [badNodeRow]] [[sampleEdgeRow]]
      (by simp) (by simp)).1,
   (output_layout [[sampleNodeRow], [badNodeRow]] [[sampleEdgeRow]]
      (by simp) (by simp)).2.1⟩

/-- C7: for any two batch sizes at least 1, both stages produce identical
output file content on the same input rows. -/
theorem batch_size_invariance (b1 b2 : Nat) (nrows : List NodeRow)
    (erows : List EdgeRow) (hb1 : 1 ≤ b1) (hb2 : 1 ≤ b2) :
    nodeStage (chunksOf b1 nrows) = nodeStage (chunksOf b2 nrows)
    ∧ edgeStage (chunksOf b1 erows) = edgeStage (chunksOf b2 erows) := by
  constructor
  · cases nrows with
    | nil => rw [chunksOf_nil, chunksOf_nil]
    | cons x xs =>
      rw [nodeStage_chunks_ne_nil b1 (by simp), nodeStage_chunks_ne_nil b2 (by simp)]
  · cases erows with
    | nil => rw [chunksOf_nil, chunksOf_nil]
    | cons x xs =>
      rw [edgeStage_chunks_ne_nil b1 (by simp), edgeStage_chunks_ne_nil b2 (by simp)]

theorem batch_size_invariance_witness :
    nodeStage (chunksOf 1 [sampleNodeRow, badNodeRow])
      = nodeStage (chunksOf 2 [sampleNodeRow, badNodeRow]) :=
  (batch_size_invariance 1 2 [sampleNodeRow, badNodeRow] [sampleEdgeRow]
    (by decide) (by decide)).1

/-- C8: the pipeline is deterministic — byte-identical inputs give
byte-identical node and edge output files. -/
theorem pipeline_deterministic (n1 n2 : List RawNodeRow)
    (e1 e2 : List RawEdgeRow) (hn : n1 = n2) (he : e1 = e2) :
    runNodeStage n1 = runNodeStage n2 ∧ runEdgeStage e1 = runEdgeStage e2 := by
  rw [hn, he]
  exact ⟨rfl, rfl⟩

theorem pipeline_deterministic_witness :
    runNodeStage [] = runNodeStage [] ∧ runEdgeStage [] = runEdgeStage [] :=
  pipeline_deterministic [] [] [] [] rfl rfl

theorem map_processNodeChunk_flatten (chunks : List (List NodeRow)) :
    (chunks.map processNodeChunk).flatten = processNodeChunk chunks.flatten := by
  induction chunks with
  | nil => rfl
  | cons c cs ih =>
    rw [List.map_cons, List.flatten_cons, List.flatten_cons,
      processNodeChunk_append, ih]

theorem map_processEdgeChunk_flatten (chunks : List (List EdgeRow)) :
    (chunks.map processEdgeChunk).flatten = processEdgeChunk chunks.flatten := by
  induction chunks with
  | nil => rfl
  | cons c cs ih =>
    rw [List.map_cons, List.flatten_cons, List.flatten_cons,
      processEdgeChunk_append, ih]

/-- C10: both stages preserve input row order — for every batch size the
emitted records are exactly the order-preserving filter of the input rows
(a sublist of the input), mapped through the per-row derivation. -/
theorem order_preservation (b : Nat) (nrows : List NodeRow)
    (erows : List EdgeRow) (hb : 1 ≤ b) :
    ((chunksOf b nrows).map processNodeChunk).flatten
      = (nrows.filter nodeRowValid).map mkNodeOut
    ∧ ((chunksOf b erows).map processEdgeChunk).flatten
      = (erows.filter edgeRowValid).map mkEdgeOut
    ∧ List.Sublist (nrows.filter nodeRowValid) nrows
    ∧ List.Sublist (erows.filter edgeRowValid) erows := by
  refine ⟨?_, ?_, List.filter_sublist _, List.filter_sublist _⟩
  · rw [map_processNodeChunk_flatten, chunksOf_flatten]
    rfl
  · rw [map_processEdgeChunk_flatten, chunksOf_flatten]
    rfl

theorem order_preservation_witness :
    ((chunksOf 1 [sampleNodeRow, badNodeRow]).map processNodeChunk).flatten
      = ([sampleNodeRow, badNodeRow].filter nodeRowValid).map mkNodeOut :=
  (order_preservation 1 [sampleNodeRow, badNodeRow] [sampleEdgeRow]
    (by decide)).1

/-! ## Per-chunk dtype inference at read time

`pd.read_csv(..., chunksize=...)` infers every column's dtype from each
chunk alone.  The fragment relevant to this script: a column whose present
values are integer numerals is read as int64 when the chunk has no missing
entry in that column, but as float64 when it has one, and `to_csv` then
prints the integral floats with a trailing `.0`.  The text-level reader
`naOpt` above deliberately omits this mechanism; the definitions below
refine it for the node stage to exhibit its consequence for batching.
(Float/boolean inference and non-canonical numerals are outside the
modelled fragment.) -/

/-- The chunk-level dtype of a column, restricted to the fragment above. -/
inductive ColMode where
  | intMode
  | floatMode
  | objMode
deriving DecidableEq

/-- A field text pandas parses as an integer, restricted to canonical
decimal numerals (so the int64 round trip prints it verbatim). -/
def intLike (t : String) : Bool :=
  match t.data with
  | [] => false
  | c :: cs => (c :: cs).all Char.isDigit && (cs.isEmpty || c ≠ '0')

/-- Per-chunk dtype inference for one column (`xs` are the chunk's cells,
`none` a missing entry): all-integer columns are int64 without missing
entries and float64 with one; anything else stays object. -/
def colMode (xs : List (Option String)) : ColMode :=
  if (xs.filterMap id).all intLike then
    if xs.all Option.isSome then ColMode.intMode else ColMode.floatMode
  else ColMode.objMode

/-- The text `str()`/`to_csv` produce for a present cell under a column
dtype: an integral float prints with a trailing `.0`. -/
def dtypeCell (m : ColMode) (t : String) : String :=
  match m with
  | ColMode.floatMode => t ++ ".0"
  | _ => t

/-- Read one raw cell under a column dtype; an empty field is `NaN`. -/
def parseCellPandas (m : ColMode) (t : String) : Option String :=
  if t = "" then none else some (dtypeCell m t)

/-- Read one raw node chunk as the pandas chunked reader does: infer each
column's dtype from this chunk alone (before `dropna` runs), then apply it
to the chunk's cells. -/
def readNodeChunkPandas (rs : List RawNodeRow) : List NodeRow :=
  let mIdx := colMode (rs.map (fun r => naOpt r.node_index))
  let mId := colMode (rs.map (fun r => naOpt r.node_id))
  let mSrc := colMode (rs.map (fun r => naOpt r.node_source))
  let mTyp := colMode (rs.map (fun r => naOpt r.node_type))
  let mNam := colMode (rs.map (fun r => naOpt r.node_name))
  rs.map (fun r =>
    { node_index := parseCellPandas mIdx r.node_index
      node_id := parseCellPandas mId r.node_id
      node_source := parseCellPandas mSrc r.node_source
      node_type := parseCellPandas mTyp r.node_type
      node_name := parseCellPandas mNam r.node_name })

/-- The node stage run with batch size `b` and the per-chunk dtype reader. -/
def runNodeStageDtype (raws : List RawNodeRow) (b : Nat) : List (List String) :=
  nodeStage ((chunksOf b raws).map readNodeChunkPandas)

/-- Raw node row with integer index `1` and textual other fields. -/
def idxRow1 : RawNodeRow :=
  { node_index := "1", node_id := "a", node_source := "S",
    node_type := "t", node_name := "n" }

/-- Raw node row with a missing `node_index` (dropped by validation, but
still seen by the chunk's dtype inference). -/
def idxRowMissing : RawNodeRow :=
  { node_index := "", node_id := "a", node_source := "S",
    node_type := "t", node_name := "n" }

/-- Raw node row with integer index `2` and textual other fields. -/
def idxRow2 : RawNodeRow :=
  { node_index := "2", node_id := "a", node_source := "S",
    node_type := "t", node_name := "n" }

/-- C7 (code bug): batch size changes the bytes written.  With rows whose
`node_index` texts are `"1"`, `""` (that row is dropped) and `"2"`, batch
size 3 puts the missing entry in the same chunk as the survivors, the
column is read as float64, and the file says `1.0` and `2.0`; batch size 1
reads each survivor in an all-integer chunk and the file says `1` and `2` —
although the spec promises identical output for every batch size ≥ 1. -/
theorem batch_dtype_divergence :
    ¬ runNodeStageDtype [idxRow1, idxRowMissing, idxRow2] 1
        = runNodeStageDtype [idxRow1, idxRowMissing, idxRow2] 3 := by
  have hc1 : chunksOf 1 [idxRow1, idxRowMissing, idxRow2]
      = [[idxRow1], [idxRowMissing], [idxRow2]] := by
    simp [chunksOf]
  have hc3 : chunksOf 3 [idxRow1, idxRowMissing, idxRow2]
      = [[idxRow1, idxRowMissing, idxRow2]] := by
    simp [chunksOf]
  unfold runNodeStageDtype
  rw [hc1, hc3]
  decide
